import Mathlib

/-!
Verification of the EWMA kernel `ewm_mean` / `ewm_mean_alpha_equals_one`
from `polars-arrow/src/kernels/ewm/average.rs`, shallowly embedded over ℚ
(the idealisation of the generic float type `T`).  Sequences of optional
floats become `List (Option ℚ)`; the mutable recurrence variables become an
explicit state record threaded through the pass.
-/

/-- The local mutable state of the general recurrence in `ewm_mean`:
`opt_mean`, `non_null_cnt`, `current_wgt`, `wgt_sum`,
`current_one_sub_alpha` in the Rust source. -/
structure EwmState where
  opt_mean : Option ℚ
  non_null_cnt : Nat
  current_wgt : ℚ
  wgt_sum : ℚ
  current_one_sub_alpha : ℚ
  deriving DecidableEq

/-- One iteration of the closure body of `ewm_mean` (state update only):
on a present value, bump the count, fold the weight into `wgt_sum`,
update the mean and reset the weights; on an absent value with
`ignore_na = false`, compound the decay into `current_wgt`. -/
def ewmStep (alpha : ℚ) (ignore_na : Bool) (s : EwmState) (ox : Option ℚ) :
    EwmState :=
  match ox with
  | some x =>
    let prev_mean := s.opt_mean.getD x
    let wgt_sum := s.current_one_sub_alpha * s.wgt_sum + s.current_wgt
    let curr_mean := prev_mean + (x - prev_mean) * s.current_wgt / wgt_sum
    { opt_mean := some curr_mean
      non_null_cnt := s.non_null_cnt + 1
      current_wgt := alpha
      wgt_sum := wgt_sum
      current_one_sub_alpha := 1 - alpha }
  | none =>
    if ignore_na then s
    else
      { s with
        current_wgt := s.current_wgt * alpha
        current_one_sub_alpha := 1 - s.current_wgt * alpha }

/-- The per-element output of `ewm_mean`: absent while fewer than
`min_periods` present observations have been seen, else the running mean. -/
def emitMean (min_periods : Nat) (s : EwmState) : Option ℚ :=
  if s.non_null_cnt < min_periods then none else s.opt_mean

/-- The mapping pass of `ewm_mean`: every element updates the state and
emits one output. -/
def ewmMeanGo (alpha : ℚ) (ignore_na : Bool) (min_periods : Nat) :
    EwmState → List (Option ℚ) → List (Option ℚ)
  | _, [] => []
  | s, ox :: rest =>
    let s2 := ewmStep alpha ignore_na s ox
    emitMean min_periods s2 :: ewmMeanGo alpha ignore_na min_periods s2 rest

/-- The initial recurrence state of `ewm_mean`: no mean yet, zero count,
weight `alpha`, `wgt_sum` zero iff `adjust`, complement `1 - alpha`. -/
def initState (alpha : ℚ) (adjust : Bool) : EwmState :=
  { opt_mean := none
    non_null_cnt := 0
    current_wgt := alpha
    wgt_sum := if adjust then 0 else 1
    current_one_sub_alpha := 1 - alpha }

/-- The loop of `ewm_mean_alpha_equals_one`, carrying `non_null_count`:
count present values and forward the element once the count reaches
`min_periods`. -/
def ewmMeanAlphaOneGo (min_periods : Nat) :
    Nat → List (Option ℚ) → List (Option ℚ)
  | _, [] => []
  | cnt, ox :: rest =>
    let cnt2 := if ox.isSome then cnt + 1 else cnt
    (if cnt2 < min_periods then none else ox) ::
      ewmMeanAlphaOneGo min_periods cnt2 rest

/-- The special-cased `alpha = 1` kernel `ewm_mean_alpha_equals_one`. -/
def ewm_mean_alpha_equals_one (xs : List (Option ℚ)) (min_periods : Nat) :
    List (Option ℚ) :=
  ewmMeanAlphaOneGo min_periods 0 xs

/-- The public kernel `ewm_mean`: dispatch to the fast path when
`alpha = 1`, otherwise run the general recurrence from the initial state. -/
def ewm_mean (xs : List (Option ℚ)) (alpha : ℚ) (adjust : Bool)
    (min_periods : Nat) (ignore_na : Bool) : List (Option ℚ) :=
  if alpha = 1 then ewm_mean_alpha_equals_one xs min_periods
  else ewmMeanGo alpha ignore_na min_periods (initState alpha adjust) xs

/-- Count of present observations in a sequence (the value of
`non_null_count` after consuming the sequence). -/
def nonNullCount (xs : List (Option ℚ)) : Nat :=
  xs.countP (fun o => o.isSome)

/-- Spec-side model for the refinement claim about `adjust = false`: the
direct recursive formula `mean_t = alpha * x_t + (1 - alpha) * mean_(t-1)`,
seeded with the first value itself, each entry masked while the running
count of observations is below `min_periods`. -/
def directModel (alpha : ℚ) (min_periods : Nat) :
    Nat → Option ℚ → List ℚ → List (Option ℚ)
  | _, _, [] => []
  | cnt, om, x :: rest =>
    let m := match om with
      | none => x
      | some m0 => alpha * x + (1 - alpha) * m0
    (if cnt + 1 < min_periods then none else some m) ::
      directModel alpha min_periods (cnt + 1) (some m) rest

/-- The presence/absence pattern the general recurrence produces, computed
from the input's presence pattern alone. -/
def presencePattern (min_periods : Nat) : Nat → Bool → List Bool → List Bool
  | _, _, [] => []
  | cnt, hm, b :: rest =>
    let cnt2 := if b then cnt + 1 else cnt
    let hm2 := hm || b
    (if cnt2 < min_periods then false else hm2) ::
      presencePattern min_periods cnt2 hm2 rest

/-- The presence/absence pattern the `alpha = 1` fast path produces,
computed from the input's presence pattern alone. -/
def presencePatternOne (min_periods : Nat) : Nat → List Bool → List Bool
  | _, [] => []
  | cnt, b :: rest =>
    let cnt2 := if b then cnt + 1 else cnt
    (if cnt2 < min_periods then false else b) ::
      presencePatternOne min_periods cnt2 rest

/-- Invariant maintained by the general recurrence for `alpha` in (0,1):
the pending weight is in (0,1], its complement field is consistent, and the
accumulated denominator is non-negative. -/
def DivInv (s : EwmState) : Prop :=
  0 < s.current_wgt ∧ s.current_wgt ≤ 1 ∧
    s.current_one_sub_alpha = 1 - s.current_wgt ∧ 0 ≤ s.wgt_sum

/- ### Basic step lemmas -/

@[simp]
theorem ewmStep_some_non_null_cnt (alpha : ℚ) (ig : Bool) (s : EwmState)
    (x : ℚ) : (ewmStep alpha ig s (some x)).non_null_cnt = s.non_null_cnt + 1 := by
  simp [ewmStep]

@[simp]
theorem ewmStep_none_non_null_cnt (alpha : ℚ) (ig : Bool) (s : EwmState) :
    (ewmStep alpha ig s none).non_null_cnt = s.non_null_cnt := by
  cases ig <;> simp [ewmStep]

@[simp]
theorem ewmStep_none_opt_mean (alpha : ℚ) (ig : Bool) (s : EwmState) :
    (ewmStep alpha ig s none).opt_mean = s.opt_mean := by
  cases ig <;> simp [ewmStep]

@[simp]
theorem ewmStep_some_opt_mean_isSome (alpha : ℚ) (ig : Bool) (s : EwmState)
    (x : ℚ) : (ewmStep alpha ig s (some x)).opt_mean.isSome = true := by
  simp [ewmStep]

@[simp]
theorem ewmStep_some_wgt_sum (alpha : ℚ) (ig : Bool) (s : EwmState) (x : ℚ) :
    (ewmStep alpha ig s (some x)).wgt_sum =
      s.current_one_sub_alpha * s.wgt_sum + s.current_wgt := by
  simp [ewmStep]

@[simp]
theorem nonNullCount_nil : nonNullCount [] = 0 := rfl

@[simp]
theorem nonNullCount_cons (ox : Option ℚ) (xs : List (Option ℚ)) :
    nonNullCount (ox :: xs) =
      (if ox.isSome then 1 else 0) + nonNullCount xs := by
  simp [nonNullCount, List.countP_cons]
  omega

/- ### Length lemmas -/

theorem ewmMeanGo_length (alpha : ℚ) (ig : Bool) (mp : Nat) :
    ∀ (xs : List (Option ℚ)) (s : EwmState),
      (ewmMeanGo alpha ig mp s xs).length = xs.length
  | [], _ => rfl
  | _ :: rest, s => by
    simp only [ewmMeanGo, List.length_cons]
    rw [ewmMeanGo_length alpha ig mp rest]

theorem ewmMeanAlphaOneGo_length (mp : Nat) :
    ∀ (xs : List (Option ℚ)) (cnt : Nat),
      (ewmMeanAlphaOneGo mp cnt xs).length = xs.length
  | [], _ => rfl
  | _ :: rest, cnt => by
    simp only [ewmMeanAlphaOneGo, List.length_cons]
    rw [ewmMeanAlphaOneGo_length mp rest]

/- ### Fold state lemmas -/

theorem foldl_ewmStep_non_null_cnt (alpha : ℚ) (ig : Bool) :
    ∀ (xs : List (Option ℚ)) (s : EwmState),
      (List.foldl (ewmStep alpha ig) s xs).non_null_cnt =
        s.non_null_cnt + nonNullCount xs
  | [], s => by simp
  | ox :: rest, s => by
    rw [List.foldl_cons, foldl_ewmStep_non_null_cnt alpha ig rest]
    cases ox with
    | none => simp
    | some x => simp; omega

theorem foldl_ewmStep_opt_mean_isSome (alpha : ℚ) (ig : Bool) :
    ∀ (xs : List (Option ℚ)) (s : EwmState),
      ((List.foldl (ewmStep alpha ig) s xs).opt_mean.isSome = true ↔
        (s.opt_mean.isSome = true ∨ 1 ≤ nonNullCount xs))
  | [], s => by simp
  | ox :: rest, s => by
    rw [List.foldl_cons, foldl_ewmStep_opt_mean_isSome alpha ig rest]
    cases ox with
    | none => simp
    | some x => simp

/- ### Pointwise characterisation of the general pass -/

theorem ewmMeanGo_getD (alpha : ℚ) (ig : Bool) (mp : Nat) :
    ∀ (xs : List (Option ℚ)) (s : EwmState) (i : Nat), i < xs.length →
      (ewmMeanGo alpha ig mp s xs).getD i none =
        emitMean mp (List.foldl (ewmStep alpha ig) s (xs.take (i + 1)))
  | [], _, i, hi => absurd hi (by simp)
  | ox :: rest, s, 0, _ => by
    simp [ewmMeanGo]
  | ox :: rest, s, i + 1, hi => by
    simp only [ewmMeanGo, List.getD_cons_succ, List.take_succ_cons,
      List.foldl_cons]
    exact ewmMeanGo_getD alpha ig mp rest (ewmStep alpha ig s ox) i
      (by simpa using hi)

theorem ewmMeanAlphaOneGo_getD (mp : Nat) :
    ∀ (xs : List (Option ℚ)) (cnt i : Nat), i < xs.length →
      (ewmMeanAlphaOneGo mp cnt xs).getD i none =
        if cnt + nonNullCount (xs.take (i + 1)) < mp then none
        else xs.getD i none
  | [], _, i, hi => absurd hi (by simp)
  | ox :: rest, cnt, 0, _ => by
    cases ox with
    | none => simp [ewmMeanAlphaOneGo]
    | some x => simp [ewmMeanAlphaOneGo]
  | ox :: rest, cnt, i + 1, hi => by
    simp only [ewmMeanAlphaOneGo, List.getD_cons_succ, List.take_succ_cons]
    rw [ewmMeanAlphaOneGo_getD mp rest _ i (by simpa using hi)]
    cases ox with
    | none => simp
    | some x => simp [Nat.add_assoc]

/- ### Presence-pattern lemmas -/

theorem emitMean_isSome (mp : Nat) (s : EwmState) :
    (emitMean mp s).isSome =
      if s.non_null_cnt < mp then false else s.opt_mean.isSome := by
  simp [emitMean, apply_ite Option.isSome]

theorem ewmMeanGo_isSome_pattern (alpha : ℚ) (ig : Bool) (mp : Nat) :
    ∀ (xs : List (Option ℚ)) (s : EwmState),
      (ewmMeanGo alpha ig mp s xs).map Option.isSome =
        presencePattern mp s.non_null_cnt s.opt_mean.isSome
          (xs.map Option.isSome)
  | [], _ => rfl
  | ox :: rest, s => by
    cases ox with
    | none =>
      simp only [ewmMeanGo, List.map_cons, presencePattern, Option.isSome_none,
        Bool.or_false, if_false]
      rw [ewmMeanGo_isSome_pattern alpha ig mp rest, emitMean_isSome]
      simp
    | some x =>
      simp only [ewmMeanGo, List.map_cons, presencePattern, Option.isSome_some,
        Bool.or_true, if_true]
      rw [ewmMeanGo_isSome_pattern alpha ig mp rest, emitMean_isSome]
      simp

theorem ewmMeanAlphaOneGo_isSome_pattern (mp : Nat) :
    ∀ (xs : List (Option ℚ)) (cnt : Nat),
      (ewmMeanAlphaOneGo mp cnt xs).map Option.isSome =
        presencePatternOne mp cnt (xs.map Option.isSome)
  | [], _ => rfl
  | ox :: rest, cnt => by
    cases ox with
    | none =>
      simp only [ewmMeanAlphaOneGo, List.map_cons, presencePatternOne,
        Option.isSome_none, if_false]
      rw [ewmMeanAlphaOneGo_isSome_pattern mp rest]
      simp [apply_ite Option.isSome]
    | some x =>
      simp only [ewmMeanAlphaOneGo, List.map_cons, presencePatternOne,
        Option.isSome_some, if_true]
      rw [ewmMeanAlphaOneGo_isSome_pattern mp rest]
      simp [apply_ite Option.isSome]

/- ### Prefix-count lemmas -/

theorem nonNullCount_append (xs ys : List (Option ℚ)) :
    nonNullCount (xs ++ ys) = nonNullCount xs + nonNullCount ys := by
  simp [nonNullCount, List.countP_append]

theorem nonNullCount_take_mono (xs : List (Option ℚ)) {i j : Nat}
    (h : i ≤ j) :
    nonNullCount (xs.take i) ≤ nonNullCount (xs.take j) := by
  have hj : j = i + (j - i) := by omega
  rw [hj, List.take_add, nonNullCount_append]
  omega

/- ### The unadjusted recurrence collapses to the direct formula -/

theorem ewmStep_some_unadjusted (alpha : ℚ) (ig : Bool) (s : EwmState)
    (y : ℚ) (hw : s.wgt_sum = 1) (hc : s.current_wgt = alpha)
    (ho : s.current_one_sub_alpha = 1 - alpha) :
    ewmStep alpha ig s (some y) =
      { opt_mean := some (match s.opt_mean with
          | none => y
          | some m0 => alpha * y + (1 - alpha) * m0)
        non_null_cnt := s.non_null_cnt + 1
        current_wgt := alpha
        wgt_sum := 1
        current_one_sub_alpha := 1 - alpha } := by
  have hden : s.current_one_sub_alpha * s.wgt_sum + s.current_wgt = 1 := by
    rw [hw, hc, ho]; ring
  cases hm : s.opt_mean with
  | none =>
    simp only [ewmStep, hm, Option.getD_none, EwmState.mk.injEq,
      Option.some.injEq, and_true, true_and]
    exact ⟨by simp, hden⟩
  | some m0 =>
    simp only [ewmStep, hm, Option.getD_some, EwmState.mk.injEq,
      Option.some.injEq, and_true, true_and]
    refine ⟨?_, hden⟩
    rw [hden, div_one, hc]
    ring

theorem ewmMeanGo_map_some_direct (alpha : ℚ) (ig : Bool) (mp : Nat) :
    ∀ (ys : List ℚ) (s : EwmState),
      s.wgt_sum = 1 → s.current_wgt = alpha →
      s.current_one_sub_alpha = 1 - alpha →
      ewmMeanGo alpha ig mp s (ys.map some) =
        directModel alpha mp s.non_null_cnt s.opt_mean ys
  | [], _, _, _, _ => rfl
  | y :: rest, s, hw, hc, ho => by
    rw [List.map_cons]
    simp only [ewmMeanGo, directModel]
    rw [ewmStep_some_unadjusted alpha ig s y hw hc ho]
    congr 1
    exact ewmMeanGo_map_some_direct alpha ig mp rest _ rfl rfl rfl

theorem foldl_ewmStep_map_some_unadjusted (alpha : ℚ) (ig : Bool) :
    ∀ (ys : List ℚ) (s : EwmState),
      s.wgt_sum = 1 → s.current_wgt = alpha →
      s.current_one_sub_alpha = 1 - alpha →
      (List.foldl (ewmStep alpha ig) s (ys.map some)).wgt_sum = 1
  | [], _, hw, _, _ => hw
  | y :: rest, s, hw, hc, ho => by
    rw [List.map_cons, List.foldl_cons,
      ewmStep_some_unadjusted alpha ig s y hw hc ho]
    exact foldl_ewmStep_map_some_unadjusted alpha ig rest _ rfl rfl rfl

/- ### Positivity of the division's denominator -/

theorem ewmStep_DivInv (alpha : ℚ) (ig : Bool) (h0 : 0 < alpha)
    (h1 : alpha < 1) (s : EwmState) (ox : Option ℚ) (h : DivInv s) :
    DivInv (ewmStep alpha ig s ox) := by
  obtain ⟨hpos, hle, hosa, hsum⟩ := h
  cases ox with
  | some x =>
    refine ⟨h0, le_of_lt h1, by simp [ewmStep], ?_⟩
    rw [ewmStep_some_wgt_sum, hosa]
    nlinarith
  | none =>
    by_cases hig : ig
    · simpa [ewmStep, hig] using ⟨hpos, hle, hosa, hsum⟩
    · refine ⟨?_, ?_, ?_, ?_⟩ <;> simp [ewmStep, hig]
      · exact mul_pos hpos h0
      · nlinarith
      · exact hsum

theorem DivInv_initState (alpha : ℚ) (adjust : Bool) (h0 : 0 < alpha)
    (h1 : alpha < 1) : DivInv (initState alpha adjust) := by
  refine ⟨h0, le_of_lt h1, rfl, ?_⟩
  simp only [initState]
  cases adjust <;> norm_num

theorem DivInv_foldl (alpha : ℚ) (ig : Bool) (h0 : 0 < alpha)
    (h1 : alpha < 1) :
    ∀ (xs : List (Option ℚ)) (s : EwmState), DivInv s →
      DivInv (List.foldl (ewmStep alpha ig) s xs)
  | [], _, h => h
  | ox :: rest, s, h =>
    DivInv_foldl alpha ig h0 h1 rest _ (ewmStep_DivInv alpha ig h0 h1 s ox h)

/- ### `ignore_na` is inert on fully-present input -/

theorem ewmMeanGo_map_some_ignore_na (alpha : ℚ) (mp : Nat) :
    ∀ (ys : List ℚ) (s : EwmState),
      ewmMeanGo alpha true mp s (ys.map some) =
        ewmMeanGo alpha false mp s (ys.map some)
  | [], _ => rfl
  | y :: rest, s => by
    rw [List.map_cons]
    simp only [ewmMeanGo]
    have hstep : ewmStep alpha true s (some y) =
        ewmStep alpha false s (some y) := rfl
    rw [hstep, ewmMeanGo_map_some_ignore_na alpha mp rest]

/- ### `min_periods = 0` and `min_periods = 1` agree -/

theorem ewmMeanGo_min_periods_zero_eq_one (alpha : ℚ) (ig : Bool) :
    ∀ (xs : List (Option ℚ)) (s : EwmState),
      (s.non_null_cnt = 0 → s.opt_mean = none) →
      ewmMeanGo alpha ig 0 s xs = ewmMeanGo alpha ig 1 s xs
  | [], _, _ => rfl
  | ox :: rest, s, hinv => by
    simp only [ewmMeanGo]
    have htail : ewmMeanGo alpha ig 0 (ewmStep alpha ig s ox) rest =
        ewmMeanGo alpha ig 1 (ewmStep alpha ig s ox) rest := by
      cases ox with
      | some x =>
        exact ewmMeanGo_min_periods_zero_eq_one alpha ig rest _ (by simp)
      | none =>
        exact ewmMeanGo_min_periods_zero_eq_one alpha ig rest _
          (by simpa using hinv)
    rw [htail]
    have hhead : emitMean 0 (ewmStep alpha ig s ox) =
        emitMean 1 (ewmStep alpha ig s ox) := by
      cases ox with
      | some x =>
        have ha : ¬ s.non_null_cnt + 1 < 1 := by omega
        simp [emitMean, ha]
      | none =>
        simp only [emitMean, ewmStep_none_non_null_cnt, ewmStep_none_opt_mean]
        rcases Nat.eq_zero_or_pos s.non_null_cnt with h | h
        · simp [h, hinv h]
        · have ha : ¬ s.non_null_cnt < 1 := by omega
          simp [ha]
    rw [hhead]

theorem ewmMeanAlphaOneGo_min_periods_zero_eq_one :
    ∀ (xs : List (Option ℚ)) (cnt : Nat),
      ewmMeanAlphaOneGo 0 cnt xs = ewmMeanAlphaOneGo 1 cnt xs
  | [], _ => rfl
  | ox :: rest, cnt => by
    cases ox with
    | some x =>
      simp only [ewmMeanAlphaOneGo, Option.isSome_some, if_true]
      rw [ewmMeanAlphaOneGo_min_periods_zero_eq_one rest (cnt + 1)]
      have ha : ¬ cnt + 1 < 1 := by omega
      simp [ha]
    | none =>
      have hc2 : (if (none : Option ℚ).isSome = true then cnt + 1 else cnt)
          = cnt := rfl
      simp only [ewmMeanAlphaOneGo, hc2]
      rw [ewmMeanAlphaOneGo_min_periods_zero_eq_one rest cnt]
      simp

/- ### Claim theorems -/

/-- C1 counterexample: the claim admits alpha = 1, but there the fast path
forwards absences as absent: with input [present 5, absent] and
min_periods = 1, the count of present inputs reaches min_periods at
position 0 and a mean is available, yet the output at position 1 is
absent — the claimed presence condition fails and masking reoccurs after
min_periods was reached. -/
theorem ewm_mean_present_iff_fails_at_alpha_one :
    1 ≤ nonNullCount ([some 5, none].take 2) ∧
    ((ewm_mean [some 5, none] 1 false 1 false).getD 0 none).isSome = true ∧
    ((ewm_mean [some 5, none] 1 false 1 false).getD 1 none).isSome = false := by
  norm_num [ewm_mean, ewm_mean_alpha_equals_one, ewmMeanAlphaOneGo,
    nonNullCount]

/-- C1 (corrected: restricted to the general path, alpha in (0,1)): an
output entry is present iff the count of present observations up to and
including that position is at least min_periods and at least one present
observation has occurred; consequently once both thresholds are met at a
position, every later position's output is present — masking never
reoccurs. -/
theorem ewm_mean_present_iff_of_alpha_lt_one
    (xs : List (Option ℚ)) (alpha : ℚ) (adjust : Bool) (mp : Nat) (ig : Bool)
    (h0 : 0 < alpha) (h1 : alpha < 1) :
    (∀ i, i < xs.length →
      (((ewm_mean xs alpha adjust mp ig).getD i none).isSome = true ↔
        (mp ≤ nonNullCount (xs.take (i + 1)) ∧
          1 ≤ nonNullCount (xs.take (i + 1))))) ∧
    (∀ i j, i ≤ j → j < xs.length →
      mp ≤ nonNullCount (xs.take (i + 1)) →
      1 ≤ nonNullCount (xs.take (i + 1)) →
      ((ewm_mean xs alpha adjust mp ig).getD j none).isSome = true) := by
  have hne : alpha ≠ 1 := ne_of_lt h1
  have hmain : ∀ i, i < xs.length →
      (((ewm_mean xs alpha adjust mp ig).getD i none).isSome = true ↔
        (mp ≤ nonNullCount (xs.take (i + 1)) ∧
          1 ≤ nonNullCount (xs.take (i + 1)))) := by
    intro i hi
    simp only [ewm_mean, if_neg hne]
    rw [ewmMeanGo_getD alpha ig mp xs (initState alpha adjust) i hi]
    have hcnt : (List.foldl (ewmStep alpha ig) (initState alpha adjust)
        (xs.take (i + 1))).non_null_cnt = nonNullCount (xs.take (i + 1)) := by
      rw [foldl_ewmStep_non_null_cnt]; simp [initState]
    have hmean : ((List.foldl (ewmStep alpha ig) (initState alpha adjust)
          (xs.take (i + 1))).opt_mean.isSome = true ↔
        1 ≤ nonNullCount (xs.take (i + 1))) := by
      rw [foldl_ewmStep_opt_mean_isSome]; simp [initState]
    rw [emitMean_isSome, hcnt]
    by_cases hlt : nonNullCount (xs.take (i + 1)) < mp
    · simp only [hlt, if_true]
      constructor
      · intro hfalse; exact absurd hfalse (by simp)
      · intro hcond; omega
    · simp only [hlt, if_false]
      rw [hmean]
      omega
  refine ⟨hmain, ?_⟩
  intro i j hij hj hmp h1c
  have hmono := nonNullCount_take_mono xs
    (show i + 1 ≤ j + 1 by omega)
  exact (hmain j hj).mpr ⟨le_trans hmp hmono, le_trans h1c hmono⟩

/-- C1 witness: the amended theorem applied at a concrete input. -/
theorem ewm_mean_present_iff_of_alpha_lt_one_witness :
    ((ewm_mean [none, some 5] (1/2) true 1 true).getD 1 none).isSome = true ↔
      (1 ≤ nonNullCount ([none, some 5].take 2) ∧
        1 ≤ nonNullCount ([none, some 5].take 2)) :=
  (ewm_mean_present_iff_of_alpha_lt_one [none, some 5] (1/2) true 1 true
    (by norm_num) (by norm_num)).1 1 (by norm_num)

/-- C2 counterexample: `ewm_mean` never rejects out-of-domain alpha: at
alpha = 2 and at alpha = -1 it proceeds to compute and returns numeric
output (the kernel has no error path at all). -/
theorem ewm_mean_no_alpha_validation :
    ewm_mean [some 3] 2 false 0 false = [some 3] ∧
    ewm_mean [some 3] (-1) false 0 false = [some 3] := by
  constructor <;> norm_num [ewm_mean, ewmMeanGo, ewmStep, emitMean, initState]

/-- C2 (corrected): the kernel performs no domain validation on alpha and
has no error path; for every out-of-domain alpha (alpha ≤ 0 or alpha > 1)
it proceeds through the general recurrence and produces numeric output —
e.g. with min_periods = 0 and a present first observation, the first
output is that value. -/
theorem ewm_mean_out_of_domain_alpha_computes
    (alpha : ℚ) (x : ℚ) (rest : List (Option ℚ)) (adjust ig : Bool)
    (hA : alpha ≤ 0 ∨ 1 < alpha) :
    (ewm_mean (some x :: rest) alpha adjust 0 ig).getD 0 none = some x := by
  have hne : alpha ≠ 1 := by
    rcases hA with h | h <;> intro he <;> rw [he] at h <;> linarith
  simp only [ewm_mean, if_neg hne, ewmMeanGo]
  simp [emitMean, ewmStep, initState]

/-- C2 witness: the amended theorem applied at alpha = 2. -/
theorem ewm_mean_out_of_domain_alpha_computes_witness :
    (ewm_mean [some 3, none] 2 true 0 true).getD 0 none = some 3 :=
  ewm_mean_out_of_domain_alpha_computes 2 3 [none] true true
    (Or.inr (by norm_num))

/-- C3: with adjust = false, alpha in (0,1) and fully-present input the
kernel equals the direct recursive model (first output is the first input,
each later mean is alpha * x + (1 - alpha) * previous mean, entries with
running count below min_periods masked), and weight_sum stays 1 after
every prefix of the pass. -/
theorem ewm_mean_unadjusted_direct_recurrence
    (ys : List ℚ) (alpha : ℚ) (mp : Nat) (ig : Bool)
    (h0 : 0 < alpha) (h1 : alpha < 1) :
    ewm_mean (ys.map some) alpha false mp ig =
      directModel alpha mp 0 none ys ∧
    (∀ n, (List.foldl (ewmStep alpha ig) (initState alpha false)
      ((ys.take n).map some)).wgt_sum = 1) := by
  have hne : alpha ≠ 1 := ne_of_lt h1
  constructor
  · simp only [ewm_mean, if_neg hne]
    have h := ewmMeanGo_map_some_direct alpha ig mp ys
      (initState alpha false) rfl rfl rfl
    simpa [initState] using h
  · intro n
    exact foldl_ewmStep_map_some_unadjusted alpha ig (ys.take n) _ rfl rfl rfl

/-- C3 witness: the theorem applied at a concrete input. -/
theorem ewm_mean_unadjusted_direct_recurrence_witness :
    ewm_mean ([(1 : ℚ), 2].map some) (1/2) false 0 true =
      directModel (1/2) 0 0 none [1, 2] :=
  (ewm_mean_unadjusted_direct_recurrence [1, 2] (1/2) 0 true
    (by norm_num) (by norm_num)).1

/-- C4: when alpha = 1 the kernel transparently takes the fast path, and
at every position the output is absent when the running count of present
observations is below min_periods, and otherwise the observation itself,
unchanged (a present input keeps its exact value, an absent input stays
absent). -/
theorem ewm_mean_alpha_one_forwards
    (xs : List (Option ℚ)) (adjust : Bool) (mp : Nat) (ig : Bool) :
    ewm_mean xs 1 adjust mp ig = ewm_mean_alpha_equals_one xs mp ∧
    (∀ i, i < xs.length →
      (ewm_mean xs 1 adjust mp ig).getD i none =
        if nonNullCount (xs.take (i + 1)) < mp then none
        else xs.getD i none) := by
  have hfast : ewm_mean xs 1 adjust mp ig = ewm_mean_alpha_equals_one xs mp := by
    simp [ewm_mean]
  refine ⟨hfast, ?_⟩
  intro i hi
  rw [hfast, show ewm_mean_alpha_equals_one xs mp =
    ewmMeanAlphaOneGo mp 0 xs from rfl]
  rw [ewmMeanAlphaOneGo_getD mp xs 0 i hi]
  simp

/-- C4 witness: the theorem applied at a concrete input and position. -/
theorem ewm_mean_alpha_one_forwards_witness :
    (ewm_mean [some 5, none] 1 false 1 true).getD 1 none =
      (if nonNullCount ([some 5, none].take 2) < 1 then none
       else [some 5, none].getD 1 none) :=
  (ewm_mean_alpha_one_forwards [some 5, none] false 1 true).2 1 (by norm_num)

/-- C5 counterexample: with adjust = true, ignore_na = false, alpha = 1/2,
the state reached after the input [absent, present 1] has
weight_sum = 1/4 < 1/2 = current_weight, so "weight_sum is always ≥
current_weight" is false as a state invariant of the pass. -/
theorem wgt_sum_ge_current_wgt_fails_as_invariant :
    (List.foldl (ewmStep (1/2) false) (initState (1/2) true)
        [none, some 1]).wgt_sum <
      (List.foldl (ewmStep (1/2) false) (initState (1/2) true)
        [none, some 1]).current_wgt := by
  norm_num [List.foldl, ewmStep, initState]

/-- C5 (corrected): at every mean update — whenever a present observation
is processed after an arbitrary processed prefix, for alpha in (0,1) and
any adjust / ignore_na — the freshly updated weight_sum used as the
divisor is at least the positive current_weight entering the update, so
the division is never by zero; no error path is needed.  (As a
between-steps state invariant the inequality can fail, see the
counterexample.) -/
theorem ewm_mean_divisor_pos
    (pre : List (Option ℚ)) (alpha : ℚ) (adjust ig : Bool) (x : ℚ)
    (h0 : 0 < alpha) (h1 : alpha < 1) :
    0 < (List.foldl (ewmStep alpha ig) (initState alpha adjust)
        pre).current_wgt ∧
    (List.foldl (ewmStep alpha ig) (initState alpha adjust) pre).current_wgt
      ≤ (ewmStep alpha ig
          (List.foldl (ewmStep alpha ig) (initState alpha adjust) pre)
          (some x)).wgt_sum ∧
    0 < (ewmStep alpha ig
        (List.foldl (ewmStep alpha ig) (initState alpha adjust) pre)
        (some x)).wgt_sum := by
  obtain ⟨hpos, hle, hosa, hsum⟩ :=
    DivInv_foldl alpha ig h0 h1 pre _ (DivInv_initState alpha adjust h0 h1)
  refine ⟨hpos, ?_, ?_⟩
  · rw [ewmStep_some_wgt_sum, hosa]
    nlinarith
  · rw [ewmStep_some_wgt_sum, hosa]
    nlinarith

/-- C5 witness: the amended theorem applied at a concrete prefix. -/
theorem ewm_mean_divisor_pos_witness :
    0 < (List.foldl (ewmStep (1/2) false) (initState (1/2) true)
        [none]).current_wgt :=
  (ewm_mean_divisor_pos [none] (1/2) true false 3
    (by norm_num) (by norm_num)).1

/-- C6: on input with no absent observation, ignore_na has no effect on
the output, for every alpha in (0,1], both adjust settings and every
min_periods. -/
theorem ewm_mean_ignore_na_no_effect_without_nulls
    (ys : List ℚ) (alpha : ℚ) (adjust : Bool) (mp : Nat)
    (h0 : 0 < alpha) (h1 : alpha ≤ 1) :
    ewm_mean (ys.map some) alpha adjust mp true =
      ewm_mean (ys.map some) alpha adjust mp false := by
  by_cases hne : alpha = 1
  · simp [ewm_mean, hne]
  · simp only [ewm_mean, if_neg hne]
    exact ewmMeanGo_map_some_ignore_na alpha mp ys (initState alpha adjust)

/-- C6 witness: the theorem applied at a concrete input. -/
theorem ewm_mean_ignore_na_no_effect_without_nulls_witness :
    ewm_mean ([(1 : ℚ), 2].map some) (1/2) true 0 true =
      ewm_mean ([(1 : ℚ), 2].map some) (1/2) true 0 false :=
  ewm_mean_ignore_na_no_effect_without_nulls [1, 2] (1/2) true 0
    (by norm_num) (by norm_num)

/-- C7: the concrete case from the spec: input [absent, absent, 5, 7],
min_periods = 1, alpha = 1/2, adjust = false, under either ignore_na
setting, yields [absent, absent, 5, 6]. -/
theorem ewm_mean_min_periods_leading_nulls_case :
    ewm_mean [none, none, some 5, some 7] (1/2) false 1 true
      = [none, none, some 5, some 6] ∧
    ewm_mean [none, none, some 5, some 7] (1/2) false 1 false
      = [none, none, some 5, some 6] := by
  constructor <;> norm_num [ewm_mean, ewmMeanGo, ewmStep, emitMean, initState]

/-- C8: for every input sequence (including the empty one) and every
parameter setting, the output has exactly the length of the input. -/
theorem ewm_mean_length (xs : List (Option ℚ)) (alpha : ℚ) (adjust : Bool)
    (mp : Nat) (ig : Bool) :
    (ewm_mean xs alpha adjust mp ig).length = xs.length := by
  by_cases h : alpha = 1
  · simp [ewm_mean, h, ewm_mean_alpha_equals_one, ewmMeanAlphaOneGo_length]
  · simp [ewm_mean, h, ewmMeanGo_length]

/-- C9: for every input sequence and alpha in (0,1], both adjust and
ignore_na, the output with min_periods = 0 is identical to the output
with min_periods = 1. -/
theorem ewm_mean_min_periods_zero_eq_one
    (xs : List (Option ℚ)) (alpha : ℚ) (adjust ig : Bool)
    (h0 : 0 < alpha) (h1 : alpha ≤ 1) :
    ewm_mean xs alpha adjust 0 ig = ewm_mean xs alpha adjust 1 ig := by
  by_cases h : alpha = 1
  · simp only [ewm_mean, h, if_pos]
    exact ewmMeanAlphaOneGo_min_periods_zero_eq_one xs 0
  · simp only [ewm_mean, if_neg h]
    exact ewmMeanGo_min_periods_zero_eq_one alpha ig xs _ (fun _ => rfl)

/-- C9 witness: the theorem applied at a concrete input. -/
theorem ewm_mean_min_periods_zero_eq_one_witness :
    ewm_mean [none, some 2] (1/2) true 0 false =
      ewm_mean [none, some 2] (1/2) true 1 false :=
  ewm_mean_min_periods_zero_eq_one [none, some 2] (1/2) true false
    (by norm_num) (by norm_num)

/-- C10: the presence pattern of the output depends only on the presence
pattern of the input and the parameters: two inputs of equal presence
pattern, run with equal parameters, give outputs of equal presence
pattern. -/
theorem ewm_mean_presence_pattern_only
    (xs ys : List (Option ℚ)) (alpha : ℚ) (adjust : Bool) (mp : Nat)
    (ig : Bool) (h : xs.map Option.isSome = ys.map Option.isSome) :
    (ewm_mean xs alpha adjust mp ig).map Option.isSome =
      (ewm_mean ys alpha adjust mp ig).map Option.isSome := by
  by_cases halpha : alpha = 1
  · simp only [ewm_mean]
    rw [if_pos halpha, if_pos halpha]
    simp only [ewm_mean_alpha_equals_one]
    rw [ewmMeanAlphaOneGo_isSome_pattern, ewmMeanAlphaOneGo_isSome_pattern, h]
  · simp only [ewm_mean]
    rw [if_neg halpha, if_neg halpha]
    rw [ewmMeanGo_isSome_pattern, ewmMeanGo_isSome_pattern, h]

/-- C10 witness: the theorem applied at two concrete inputs differing only
in their present values. -/
theorem ewm_mean_presence_pattern_only_witness :
    (ewm_mean [some 1, none] (1/2) true 2 false).map Option.isSome =
      (ewm_mean [some 7, none] (1/2) true 2 false).map Option.isSome :=
  ewm_mean_presence_pattern_only [some 1, none] [some 7, none] (1/2) true 2
    false rfl
